import Mathlib

/-!
# Verification of `RehashingHashMap` (seppo0010/rehashinghashmap)

A shallow embedding of `src/lib.rs`: a key-value container built from two
hash tables (`hashmap1`, `hashmap2`) that migrates entries incrementally
from the retired table ("secondary") to the active table ("main"), one
entry per `rehash` call.

Modelling conventions:
* A Rust `HashMap<K, V>` is modelled by `HM K V`: an association list of
  entries (the list order stands in for the table's unspecified iteration
  order) together with a `cap : Nat` field modelling `HashMap::capacity()`.
  `HashMap::new()` is guaranteed by the Rust documentation to have capacity
  zero; `reserve`/`insert` guarantee only `capacity ≥ len`, which the model
  realises with the minimal compliant value.
* Rust `panic!`/`assert` (reachable via `assert_eq!` in `drop_secondary`)
  is modelled by `Option`: `none` is a panic.  Functions whose asserts are
  guarded so that they can never fire (the finalize branch of `rehash`)
  stay total, with the guard made explicit.
* `K: Eq + Hash + Clone` becomes `[DecidableEq K]`; cloning is identity.
-/

/-- Association-list lookup: value of the first entry whose key is `k`
(models `HashMap::get`). -/
def lookupKV {K V : Type} [DecidableEq K] : List (K × V) → K → Option V
  | [], _ => none
  | p :: t, k => if p.1 = k then some p.2 else lookupKV t k

/-- Remove the first entry whose key is `k` (models the entry removal done
by `HashMap::remove`). -/
def eraseKV {K V : Type} [DecidableEq K] (k : K) : List (K × V) → List (K × V)
  | [] => []
  | p :: t => if p.1 = k then t else p :: eraseKV k t

/-- Overwrite in place the value of the first entry whose key is `k`
(models writing through a `&mut V` handle from `get_mut`/`entry`/`iter_mut`). -/
def setValKV {K V : Type} [DecidableEq K] (k : K) (v : V) : List (K × V) → List (K × V)
  | [] => []
  | p :: t => if p.1 = k then (k, v) :: t else p :: setValKV k v t

/-- The keys of an association list, in order. -/
def keysKV {K V : Type} (l : List (K × V)) : List K := l.map Prod.fst

/-- Model of Rust's `std::collections::HashMap<K, V>`: the entries (in the
table's own iteration order) plus the reserved capacity. -/
structure HM (K V : Type) where
  entries : List (K × V)
  cap : Nat
  deriving DecidableEq

namespace HM

variable {K V : Type} [DecidableEq K]

/-- `HashMap::new()`: empty, capacity 0 (guaranteed by the Rust docs). -/
def mkEmpty : HM K V := ⟨[], 0⟩

/-- `HashMap::with_capacity(c)`. -/
def mkWithCapacity (c : Nat) : HM K V := ⟨[], c⟩

/-- `HashMap::len()`. -/
def len (m : HM K V) : Nat := m.entries.length

/-- `HashMap::get(k)`. -/
def lookup (m : HM K V) (k : K) : Option V := lookupKV m.entries k

/-- `HashMap::contains_key(k)`. -/
def containsKey (m : HM K V) (k : K) : Bool := (m.lookup k).isSome

/-- `HashMap::insert(k, v)`: replaces any existing binding for `k`, returns
the previous value.  Capacity grows as needed (`capacity ≥ len` afterwards). -/
def insert (m : HM K V) (k : K) (v : V) : HM K V × Option V :=
  let es := (k, v) :: eraseKV k m.entries
  (⟨es, max m.cap es.length⟩, lookupKV m.entries k)

/-- `HashMap::remove(k)`: capacity is unchanged. -/
def remove (m : HM K V) (k : K) : HM K V × Option V :=
  (⟨eraseKV k m.entries, m.cap⟩, lookupKV m.entries k)

/-- `HashMap::reserve(additional)`: afterwards `capacity ≥ len + additional`. -/
def reserve (m : HM K V) (additional : Nat) : HM K V :=
  ⟨m.entries, max m.cap (m.entries.length + additional)⟩

/-- `HashMap::clear()`: drops the entries, keeps the allocation. -/
def clear (m : HM K V) : HM K V := ⟨[], m.cap⟩

end HM

/-- Model of `RehashingHashMap<K, V>` (the four fields of the Rust struct). -/
structure RHM (K V : Type) where
  hashmap1 : HM K V
  hashmap2 : HM K V
  is1main : Bool
  rehashing : Bool
  deriving DecidableEq

namespace RHM

variable {K V : Type} [DecidableEq K]

/-- `RehashingHashMap::new()`. -/
def mkNew : RHM K V := ⟨HM.mkEmpty, HM.mkEmpty, true, false⟩

/-- `RehashingHashMap::with_capacity(c)`. -/
def with_capacity (c : Nat) : RHM K V := ⟨HM.mkWithCapacity c, HM.mkEmpty, true, false⟩

/-- `get_main`. -/
def get_main (s : RHM K V) : HM K V := if s.is1main then s.hashmap1 else s.hashmap2

/-- `get_secondary`. -/
def get_secondary (s : RHM K V) : HM K V := if s.is1main then s.hashmap2 else s.hashmap1

/-- Write back the main table (models mutation through `get_mut_main`). -/
def set_main (s : RHM K V) (m : HM K V) : RHM K V :=
  if s.is1main then { s with hashmap1 := m } else { s with hashmap2 := m }

/-- Write back the secondary table (models mutation through `get_mut_secondary`). -/
def set_secondary (s : RHM K V) (m : HM K V) : RHM K V :=
  if s.is1main then { s with hashmap2 := m } else { s with hashmap1 := m }

/-- The state change shared by `drop_secondary`'s success path: set
`rehashing` to `false` and replace the secondary table by `HashMap::new()`
(capacity 0); the retired table is handed to a background thread, which is
pure deallocation and invisible to the container. -/
def finalize_drop (s : RHM K V) : RHM K V :=
  set_secondary { s with rehashing := false } HM.mkEmpty

/-- `drop_secondary`: sets `rehashing = false`, then
`assert_eq!(self.get_secondary().len(), 0)` — modelled by `none` (panic)
when the secondary table still holds entries. -/
def drop_secondary (s : RHM K V) : Option (RHM K V) :=
  if (get_secondary s).len = 0 then some (finalize_drop s) else none

/-- `rehash()`: one migration step.  If not rehashing, no-op.  If the
secondary table is empty, finalize (this is `drop_secondary`, whose assert
is exactly the branch guard and hence cannot fire).  Otherwise move the
first entry yielded by the secondary table from secondary to main. -/
def rehash (s : RHM K V) : RHM K V :=
  if s.rehashing then
    if (get_secondary s).len = 0 then
      finalize_drop s
    else
      match (get_secondary s).entries with
      | [] => s
      | (k, v) :: _ =>
        let s1 := set_secondary s ((get_secondary s).remove k).1
        set_main s1 ((get_main s1).insert k v).1
  else s

/-- `rehash` iterated `n` times (`advanceOneStep` called `n` times). -/
def rehashN (n : Nat) (s : RHM K V) : RHM K V :=
  match n with
  | 0 => s
  | n + 1 => rehashN n (rehash s)

/-- `capacity()`: main table's capacity plus the secondary table's length. -/
def capacity (s : RHM K V) : Nat := (get_main s).cap + (get_secondary s).len

/-- `reserve(additional)`. -/
def reserve (s : RHM K V) (additional : Nat) : RHM K V :=
  let s1 := rehash s
  set_main s1 ((get_main s1).reserve additional)

/-- `is_rehashing()`: when the flag is `false` it first runs
`assert_eq!(self.get_secondary().len(), 0)` — `none` models that panic. -/
def is_rehashing (s : RHM K V) : Option Bool :=
  if s.rehashing then some true
  else if (get_secondary s).len = 0 then some false else none

/-- `shrink_to_fit()`: if not rehashing, start a reorganization: set the
flag, swap the roles of the two tables, and reserve the container's length
on the (previously secondary, hence empty) new main table. -/
def shrink_to_fit (s : RHM K V) : RHM K V :=
  if !s.rehashing then
    let s1 := { s with rehashing := true, is1main := !s.is1main }
    set_main s1 ((get_main s1).reserve ((get_main s1).len + (get_secondary s1).len))
  else s

/-- `len()`. -/
def len (s : RHM K V) : Nat := (get_main s).len + (get_secondary s).len

/-- `is_empty()`. -/
def is_empty (s : RHM K V) : Bool := (get_main s).len = 0 && (get_secondary s).len = 0

/-- `clear()`: clears the main table, then calls `drop_secondary` — whose
assert fires (`none`) whenever the secondary table is non-empty. -/
def clear (s : RHM K V) : Option (RHM K V) :=
  drop_secondary (set_main s (get_main s).clear)

/-- `insert(k, v)`: remove `k` from `hashmap1` if `rehashing || is1main`,
then from `hashmap2` if nothing was found and `rehashing || !is1main`;
insert into main; run one `rehash` step; return the removed value. -/
def insert (s : RHM K V) (k : K) (v : V) : RHM K V × Option V :=
  let r1 : Option V :=
    if s.rehashing || s.is1main then s.hashmap1.lookup k else none
  let s1 : RHM K V :=
    if s.rehashing || s.is1main then { s with hashmap1 := (s.hashmap1.remove k).1 } else s
  let ret : Option V :=
    if r1.isNone && (s1.rehashing || !s1.is1main) then s1.hashmap2.lookup k else r1
  let s2 : RHM K V :=
    if r1.isNone && (s1.rehashing || !s1.is1main) then
      { s1 with hashmap2 := (s1.hashmap2.remove k).1 }
    else s1
  let s3 := set_main s2 ((get_main s2).insert k v).1
  (rehash s3, ret)

/-- `get(k)`: main only when not rehashing; main, then secondary, when
rehashing. -/
def get (s : RHM K V) (k : K) : Option V :=
  if s.rehashing then
    match (get_main s).lookup k with
    | some v => some v
    | none => (get_secondary s).lookup k
  else (get_main s).lookup k

/-- `get_mut(k)`: the state effect (one `rehash` step when rehashing) plus
the value the returned `&mut V` handle would point at (`none` = absent). -/
def get_mut (s : RHM K V) (k : K) : RHM K V × Option V :=
  if s.rehashing then
    let s1 := rehash s
    if (get_main s1).containsKey k then (s1, (get_main s1).lookup k)
    else (s1, (get_secondary s1).lookup k)
  else (s, (get_main s).lookup k)

/-- `contains_key(k)`: checks both tables unconditionally. -/
def contains_key (s : RHM K V) (k : K) : Bool :=
  (get_main s).containsKey k || (get_secondary s).containsKey k

/-- `remove(k)`: when rehashing, first one `rehash` step, then remove from
main, falling back to secondary. -/
def remove (s : RHM K V) (k : K) : RHM K V × Option V :=
  if s.rehashing then
    let s1 := rehash s
    match (get_main s1).lookup k with
    | some v => (set_main s1 ((get_main s1).remove k).1, some v)
    | none => (set_secondary s1 ((get_secondary s1).remove k).1,
               ((get_secondary s1).remove k).2)
  else (set_main s ((get_main s).remove k).1, ((get_main s).remove k).2)

/-- `entry(key).or_insert(d)`: the state effect (one `rehash` step, then —
if the slot is vacant — insertion of the default into the table the entry
resolves to) plus the value the handle points at afterwards. -/
def entry_or_insert (s : RHM K V) (k : K) (d : V) : RHM K V × V :=
  let s1 := rehash s
  if s1.rehashing && (get_secondary s1).containsKey k then
    (s1, ((get_secondary s1).lookup k).getD d)
  else
    match (get_main s1).lookup k with
    | some v => (s1, v)
    | none => (set_main s1 ((get_main s1).insert k d).1, d)

/-- Writing a value through a mutation handle for key `k` (obtained from
`get_mut`, `entry` or `iter_mut`): the value of `k`'s entry, in whichever
table holds it, is overwritten in place; keys and capacities are untouched. -/
def setValue (s : RHM K V) (k : K) (v : V) : RHM K V :=
  { s with hashmap1 := ⟨setValKV k v s.hashmap1.entries, s.hashmap1.cap⟩,
           hashmap2 := ⟨setValKV k v s.hashmap2.entries, s.hashmap2.cap⟩ }

/-- `iter()`: chains `hashmap1`'s entries with `hashmap2`'s entries —
regardless of which table is currently main. -/
def iter (s : RHM K V) : List (K × V) := s.hashmap1.entries ++ s.hashmap2.entries

/-- The `len` field stored in the `Iter` struct (`ExactSizeIterator::len`). -/
def iterLen (s : RHM K V) : Nat := s.hashmap1.len + s.hashmap2.len

/-- `iter_mut()`'s state effect: one `rehash` step before iterating. -/
def iter_mut_state (s : RHM K V) : RHM K V := rehash s

/-- `Index::index` (`map[&k]`): `get` followed by
`.expect("no entry found for key")` — the one loud failure, modelled by
`Except.error` with the panic message. -/
def index (s : RHM K V) (k : K) : Except String V :=
  match get s k with
  | some v => Except.ok v
  | none => Except.error "no entry found for key"

end RHM

/-! ## Association-list lemmas -/

section ListLemmas

variable {K V : Type} [DecidableEq K]

theorem lookupKV_isSome_iff (l : List (K × V)) (k : K) :
    (lookupKV l k).isSome = true ↔ k ∈ keysKV l := by
  induction l with
  | nil => simp [lookupKV, keysKV]
  | cons p t ih =>
    by_cases h : p.1 = k
    · simp [lookupKV, keysKV, h]
    · have h2 : ¬ k = p.1 := fun hh => h hh.symm
      simp [lookupKV, keysKV, h, h2]
      simpa [keysKV] using ih

theorem lookupKV_eq_none_iff (l : List (K × V)) (k : K) :
    lookupKV l k = none ↔ k ∉ keysKV l := by
  rw [← lookupKV_isSome_iff]
  cases lookupKV l k <;> simp

theorem lookupKV_mem (l : List (K × V)) (k : K) (v : V)
    (h : lookupKV l k = some v) : (k, v) ∈ l := by
  induction l with
  | nil => simp [lookupKV] at h
  | cons p t ih =>
    obtain ⟨a, b⟩ := p
    by_cases hp : a = k
    · subst hp
      simp [lookupKV] at h
      subst h
      exact List.mem_cons_self _ _
    · simp [lookupKV, hp] at h
      exact List.mem_cons_of_mem _ (ih h)

theorem mem_lookupKV_of_nodup (l : List (K × V)) (k : K) (v : V)
    (hnd : (keysKV l).Nodup) (h : (k, v) ∈ l) : lookupKV l k = some v := by
  induction l with
  | nil => simp at h
  | cons p t ih =>
    obtain ⟨a, b⟩ := p
    have hnd' : a ∉ keysKV t ∧ (keysKV t).Nodup := by
      simpa [keysKV, List.nodup_cons] using hnd
    rcases List.mem_cons.mp h with h1 | h1
    · simp at h1
      obtain ⟨rfl, rfl⟩ := h1
      simp [lookupKV]
    · have hk : k ∈ keysKV t := List.mem_map_of_mem Prod.fst h1
      have hik : ¬ a = k := fun he => hnd'.1 (he ▸ hk)
      simpa [lookupKV, hik] using ih hnd'.2 h1

theorem keysKV_eraseKV_sublist (k : K) (l : List (K × V)) :
    (keysKV (eraseKV k l)).Sublist (keysKV l) := by
  induction l with
  | nil => simp [eraseKV, keysKV]
  | cons p t ih =>
    by_cases h : p.1 = k
    · simpa [eraseKV, keysKV, h] using List.sublist_cons_self p.1 (keysKV t)
    · simpa [eraseKV, keysKV, h] using List.Sublist.cons₂ p.1 ih

theorem keysKV_eraseKV_subset (k k' : K) (l : List (K × V))
    (h : k' ∈ keysKV (eraseKV k l)) : k' ∈ keysKV l :=
  (keysKV_eraseKV_sublist k l).subset h

theorem nodup_keysKV_eraseKV (k : K) (l : List (K × V))
    (h : (keysKV l).Nodup) : (keysKV (eraseKV k l)).Nodup :=
  (keysKV_eraseKV_sublist k l).nodup h

theorem not_mem_keysKV_eraseKV_self (k : K) (l : List (K × V))
    (hnd : (keysKV l).Nodup) : k ∉ keysKV (eraseKV k l) := by
  induction l with
  | nil => simp [eraseKV, keysKV]
  | cons p t ih =>
    have hnd' : p.1 ∉ keysKV t ∧ (keysKV t).Nodup := by
      simpa [keysKV, List.nodup_cons] using hnd
    by_cases h : p.1 = k
    · rw [show eraseKV k (p :: t) = t from by simp [eraseKV, h]]
      exact h ▸ hnd'.1
    · have h2 : ¬ k = p.1 := fun hh => h hh.symm
      simp [eraseKV, keysKV, h, h2]
      simpa [keysKV] using ih hnd'.2

theorem lookupKV_eraseKV_ne (k k' : K) (l : List (K × V)) (hne : k' ≠ k) :
    lookupKV (eraseKV k l) k' = lookupKV l k' := by
  induction l with
  | nil => simp [eraseKV]
  | cons p t ih =>
    by_cases h : p.1 = k
    · rw [show eraseKV k (p :: t) = t from by simp [eraseKV, h]]
      have h2 : ¬ p.1 = k' := fun hh => hne (hh.symm.trans h)
      simp [lookupKV, h2]
    · rw [show eraseKV k (p :: t) = p :: eraseKV k t from by simp [eraseKV, h]]
      by_cases h3 : p.1 = k' <;> simp [lookupKV, h3, ih]

theorem lookupKV_eraseKV_self (k : K) (l : List (K × V))
    (hnd : (keysKV l).Nodup) : lookupKV (eraseKV k l) k = none :=
  (lookupKV_eq_none_iff _ _).mpr (not_mem_keysKV_eraseKV_self k l hnd)

theorem eraseKV_of_not_mem (k : K) (l : List (K × V)) (h : k ∉ keysKV l) :
    eraseKV k l = l := by
  induction l with
  | nil => simp [eraseKV]
  | cons p t ih =>
    have hks : keysKV (p :: t) = p.1 :: keysKV t := rfl
    rw [hks] at h
    have h1 : ¬ p.1 = k := fun hh => h (by simp [hh])
    have h2 : k ∉ keysKV t := fun hh => h (List.mem_cons_of_mem _ hh)
    simp [eraseKV, h1, ih h2]

theorem length_eraseKV_of_mem (k : K) (l : List (K × V)) (h : k ∈ keysKV l) :
    (eraseKV k l).length + 1 = l.length := by
  induction l with
  | nil => simp [keysKV] at h
  | cons p t ih =>
    by_cases h1 : p.1 = k
    · simp [eraseKV, h1]
    · have hks : keysKV (p :: t) = p.1 :: keysKV t := rfl
      rw [hks] at h
      have h2 : k ∈ keysKV t := by
        rcases List.mem_cons.mp h with h3 | h3
        · exact absurd (h3 ▸ h1) (fun hf => hf rfl)
        · exact h3
      rw [show eraseKV k (p :: t) = p :: eraseKV k t from by simp [eraseKV, h1]]
      have h4 := ih h2
      simp only [List.length_cons]
      omega

theorem length_eraseKV_le (k : K) (l : List (K × V)) :
    (eraseKV k l).length ≤ l.length := by
  induction l with
  | nil => simp [eraseKV]
  | cons p t ih =>
    by_cases h : p.1 = k <;> simp [eraseKV, h] <;> omega

theorem keysKV_setValKV (k : K) (v : V) (l : List (K × V)) :
    keysKV (setValKV k v l) = keysKV l := by
  induction l with
  | nil => simp [setValKV]
  | cons p t ih =>
    by_cases h : p.1 = k
    · simp [setValKV, keysKV, h]
    · simp only [setValKV, if_neg h]
      have : keysKV (p :: setValKV k v t) = p.1 :: keysKV (setValKV k v t) := rfl
      rw [this, ih]
      rfl

theorem length_setValKV (k : K) (v : V) (l : List (K × V)) :
    (setValKV k v l).length = l.length := by
  have h := congrArg List.length (keysKV_setValKV k v l)
  simpa [keysKV] using h

end ListLemmas

/-! ## Structural lemmas about the container -/

namespace RHM

variable {K V : Type} [DecidableEq K]

@[simp] theorem get_main_set_main (s : RHM K V) (m : HM K V) :
    get_main (set_main s m) = m := by
  cases h : s.is1main <;> simp [get_main, set_main, h]

@[simp] theorem get_secondary_set_main (s : RHM K V) (m : HM K V) :
    get_secondary (set_main s m) = get_secondary s := by
  cases h : s.is1main <;> simp [get_secondary, set_main, h]

@[simp] theorem get_main_set_secondary (s : RHM K V) (m : HM K V) :
    get_main (set_secondary s m) = get_main s := by
  cases h : s.is1main <;> simp [get_main, set_secondary, h]

@[simp] theorem get_secondary_set_secondary (s : RHM K V) (m : HM K V) :
    get_secondary (set_secondary s m) = m := by
  cases h : s.is1main <;> simp [get_secondary, set_secondary, h]

@[simp] theorem rehashing_set_main (s : RHM K V) (m : HM K V) :
    (set_main s m).rehashing = s.rehashing := by
  cases h : s.is1main <;> simp [set_main, h]

@[simp] theorem rehashing_set_secondary (s : RHM K V) (m : HM K V) :
    (set_secondary s m).rehashing = s.rehashing := by
  cases h : s.is1main <;> simp [set_secondary, h]

@[simp] theorem is1main_set_main (s : RHM K V) (m : HM K V) :
    (set_main s m).is1main = s.is1main := by
  cases h : s.is1main <;> simp [set_main, h]

@[simp] theorem is1main_set_secondary (s : RHM K V) (m : HM K V) :
    (set_secondary s m).is1main = s.is1main := by
  cases h : s.is1main <;> simp [set_secondary, h]

@[simp] theorem get_main_withRehashing (s : RHM K V) (b : Bool) :
    get_main { s with rehashing := b } = get_main s := rfl

@[simp] theorem get_secondary_withRehashing (s : RHM K V) (b : Bool) :
    get_secondary { s with rehashing := b } = get_secondary s := rfl

@[simp] theorem rehashing_finalize_drop (s : RHM K V) :
    (finalize_drop s).rehashing = false := by
  simp [finalize_drop]

@[simp] theorem get_main_finalize_drop (s : RHM K V) :
    get_main (finalize_drop s) = get_main s := by
  simp [finalize_drop]

@[simp] theorem get_secondary_finalize_drop (s : RHM K V) :
    get_secondary (finalize_drop s) = HM.mkEmpty := by
  simp [finalize_drop]

theorem rehash_of_not_rehashing (s : RHM K V) (h : s.rehashing = false) :
    rehash s = s := by
  simp [rehash, h]

theorem rehash_finalize (s : RHM K V) (h : s.rehashing = true)
    (h2 : (get_secondary s).entries = []) : rehash s = finalize_drop s := by
  have hlen : (get_secondary s).len = 0 := by simp [HM.len, h2]
  simp [rehash, h, hlen]

theorem rehash_move (s : RHM K V) (k : K) (v : V) (rest : List (K × V))
    (h : s.rehashing = true) (h2 : (get_secondary s).entries = (k, v) :: rest) :
    rehash s = set_main (set_secondary s ((get_secondary s).remove k).1)
      ((get_main s).insert k v).1 := by
  have hlen : ¬ (get_secondary s).len = 0 := by simp [HM.len, h2]
  simp only [rehash, h, if_true, hlen, if_false, h2]
  rw [get_main_set_secondary]

/-- The data-structure invariant from the design (I1, I2, and per-table
well-formedness of the Rust `HashMap`s: distinct keys, `capacity ≥ len`). -/
structure Inv (s : RHM K V) : Prop where
  ndMain : (keysKV (get_main s).entries).Nodup
  ndSec : (keysKV (get_secondary s).entries).Nodup
  excl : ∀ k : K, k ∈ keysKV (get_main s).entries →
    k ∈ keysKV (get_secondary s).entries → False
  quiSec : s.rehashing = false →
    (get_secondary s).entries = [] ∧ (get_secondary s).cap = 0
  capMain : (get_main s).len ≤ (get_main s).cap
  capSec : (get_secondary s).len ≤ (get_secondary s).cap

theorem inv_mkNew : Inv (mkNew : RHM K V) := by
  constructor <;> simp [mkNew, get_main, get_secondary, HM.mkEmpty, HM.len, keysKV]

theorem inv_with_capacity (c : Nat) : Inv (with_capacity c : RHM K V) := by
  constructor <;>
    simp [with_capacity, get_main, get_secondary, HM.mkEmpty, HM.mkWithCapacity,
      HM.len, keysKV]

theorem inv_finalize_drop (s : RHM K V) (h : Inv s) : Inv (finalize_drop s) := by
  refine ⟨?_, ?_, ?_, ?_, ?_, ?_⟩
  · rw [get_main_finalize_drop]
    exact h.ndMain
  · simp [HM.mkEmpty, keysKV]
  · intro k h1 h2
    simp [HM.mkEmpty, keysKV] at h2
  · intro _
    simp [HM.mkEmpty]
  · rw [get_main_finalize_drop]
    exact h.capMain
  · simp [HM.mkEmpty, HM.len]

theorem inv_rehash (s : RHM K V) (h : Inv s) : Inv (rehash s) := by
  cases hr : s.rehashing with
  | false => rw [rehash_of_not_rehashing s hr]; exact h
  | true =>
    cases hsec : (get_secondary s).entries with
    | nil => rw [rehash_finalize s hr hsec]; exact inv_finalize_drop s h
    | cons p rest =>
      obtain ⟨k, v⟩ := p
      rw [rehash_move s k v rest hr hsec]
      have hknotmain : k ∉ keysKV (get_main s).entries := fun hmem =>
        h.excl k hmem (by simp [hsec, keysKV])
      have herase : eraseKV k (get_secondary s).entries = rest := by
        simp [hsec, eraseKV]
      have hndrest : (keysKV rest).Nodup := by
        have := h.ndSec
        rw [hsec] at this
        exact (List.nodup_cons.mp (by simpa [keysKV] using this)).2
      have hmain_nd := h.ndMain
      have hmain_erase : eraseKV k (get_main s).entries = (get_main s).entries :=
        eraseKV_of_not_mem k _ hknotmain
      refine ⟨?_, ?_, ?_, ?_, ?_, ?_⟩
      · -- new main keys: k :: old main keys, k fresh
        simp only [get_main_set_main, HM.insert, hmain_erase]
        have : keysKV ((k, v) :: (get_main s).entries) = k :: keysKV (get_main s).entries := rfl
        rw [this]
        exact List.nodup_cons.mpr ⟨hknotmain, hmain_nd⟩
      · simp only [get_secondary_set_main, get_secondary_set_secondary, HM.remove, herase]
        exact hndrest
      · intro k' hk1 hk2
        simp only [get_main_set_main, HM.insert, hmain_erase] at hk1
        simp only [get_secondary_set_main, get_secondary_set_secondary, HM.remove,
          herase] at hk2
        have hk1' : k' = k ∨ k' ∈ keysKV (get_main s).entries := by
          simpa [keysKV] using hk1
        have hrest_sub : k' ∈ keysKV (get_secondary s).entries := by
          rw [hsec]
          exact List.mem_cons_of_mem _ hk2
        rcases hk1' with he | hk1'
        · -- k' = k cannot be in rest: secondary keys are nodup
          have := h.ndSec
          rw [hsec] at this
          have hnd' : k ∉ keysKV rest := (List.nodup_cons.mp (by simpa [keysKV] using this)).1
          exact hnd' (he ▸ hk2)
        · exact h.excl k' hk1' hrest_sub
      · intro hrf
        rw [rehashing_set_main, rehashing_set_secondary] at hrf
        rw [hr] at hrf
        cases hrf
      · simp only [get_main_set_main, HM.insert, HM.len]
        exact le_max_right _ _
      · simp only [get_secondary_set_main, get_secondary_set_secondary, HM.remove,
          herase, HM.len]
        have hc := h.capSec
        have hl : (get_secondary s).entries.length = rest.length + 1 := by simp [hsec]
        simp [HM.len, hl] at hc
        omega

theorem get_main_swap (s : RHM K V) :
    get_main { s with rehashing := true, is1main := !s.is1main } = get_secondary s := by
  cases h : s.is1main <;> simp [get_main, get_secondary, h]

theorem get_secondary_swap (s : RHM K V) :
    get_secondary { s with rehashing := true, is1main := !s.is1main } = get_main s := by
  cases h : s.is1main <;> simp [get_main, get_secondary, h]

theorem shrink_to_fit_of_rehashing (s : RHM K V) (h : s.rehashing = true) :
    shrink_to_fit s = s := by
  simp [shrink_to_fit, h]

theorem shrink_to_fit_eq (s : RHM K V) (h : s.rehashing = false) :
    shrink_to_fit s = set_main { s with rehashing := true, is1main := !s.is1main }
      ((get_secondary s).reserve ((get_secondary s).len + (get_main s).len)) := by
  simp only [shrink_to_fit, h, Bool.not_false, if_true]
  rw [get_main_swap, get_secondary_swap]

theorem inv_shrink_to_fit (s : RHM K V) (h : Inv s) : Inv (shrink_to_fit s) := by
  cases hr : s.rehashing with
  | true => rw [shrink_to_fit_of_rehashing s hr]; exact h
  | false =>
    rw [shrink_to_fit_eq s hr]
    have hsec := h.quiSec hr
    refine ⟨?_, ?_, ?_, ?_, ?_, ?_⟩
    · simp [HM.reserve, hsec.1, keysKV]
    · rw [get_secondary_set_main, get_secondary_swap]
      exact h.ndMain
    · intro k hk1 hk2
      simp [HM.reserve, hsec.1, keysKV] at hk1
    · intro hrf
      rw [rehashing_set_main] at hrf
      cases hrf
    · simp [HM.reserve, HM.len, hsec.1]
    · rw [get_secondary_set_main, get_secondary_swap]
      exact h.capMain

theorem inv_erase_main (t : RHM K V) (k : K) (h : Inv t) :
    Inv (set_main t ((get_main t).remove k).1) := by
  refine ⟨?_, ?_, ?_, ?_, ?_, ?_⟩
  · rw [get_main_set_main]
    exact nodup_keysKV_eraseKV k _ h.ndMain
  · rw [get_secondary_set_main]
    exact h.ndSec
  · intro k' hk1 hk2
    rw [get_main_set_main] at hk1
    rw [get_secondary_set_main] at hk2
    exact h.excl k' (keysKV_eraseKV_subset k k' _ hk1) hk2
  · intro hrf
    rw [rehashing_set_main] at hrf
    rw [get_secondary_set_main]
    exact h.quiSec hrf
  · rw [get_main_set_main]
    simp only [HM.remove, HM.len]
    exact le_trans (length_eraseKV_le k _) h.capMain
  · rw [get_secondary_set_main]
    exact h.capSec

theorem inv_erase_sec (t : RHM K V) (k : K) (h : Inv t) :
    Inv (set_secondary t ((get_secondary t).remove k).1) := by
  refine ⟨?_, ?_, ?_, ?_, ?_, ?_⟩
  · rw [get_main_set_secondary]
    exact h.ndMain
  · rw [get_secondary_set_secondary]
    exact nodup_keysKV_eraseKV k _ h.ndSec
  · intro k' hk1 hk2
    rw [get_main_set_secondary] at hk1
    rw [get_secondary_set_secondary] at hk2
    exact h.excl k' hk1 (keysKV_eraseKV_subset k k' _ hk2)
  · intro hrf
    rw [rehashing_set_secondary] at hrf
    rw [get_secondary_set_secondary]
    have hq := h.quiSec hrf
    simp [HM.remove, hq.1, hq.2, eraseKV]
  · rw [get_main_set_secondary]
    exact h.capMain
  · rw [get_secondary_set_secondary]
    simp only [HM.remove, HM.len]
    exact le_trans (length_eraseKV_le k _) h.capSec

/-- Inserting a key that is not in the secondary table into main keeps the
invariant. -/
theorem inv_insert_main (t : RHM K V) (k : K) (v : V) (h : Inv t)
    (hk : k ∉ keysKV (get_secondary t).entries) :
    Inv (set_main t ((get_main t).insert k v).1) := by
  refine ⟨?_, ?_, ?_, ?_, ?_, ?_⟩
  · rw [get_main_set_main]
    simp only [HM.insert]
    refine List.nodup_cons.mpr ⟨?_, nodup_keysKV_eraseKV k _ h.ndMain⟩
    exact not_mem_keysKV_eraseKV_self k _ h.ndMain
  · rw [get_secondary_set_main]
    exact h.ndSec
  · intro k' hk1 hk2
    rw [get_main_set_main] at hk1
    rw [get_secondary_set_main] at hk2
    simp only [HM.insert] at hk1
    have hk1' : k' = k ∨ k' ∈ keysKV (eraseKV k (get_main t).entries) := by
      simpa [keysKV] using hk1
    rcases hk1' with he | hk1'
    · exact hk (he ▸ hk2)
    · exact h.excl k' (keysKV_eraseKV_subset k k' _ hk1') hk2
  · intro hrf
    rw [rehashing_set_main] at hrf
    rw [get_secondary_set_main]
    exact h.quiSec hrf
  · rw [get_main_set_main]
    simp only [HM.insert, HM.len]
    exact le_max_right _ _
  · rw [get_secondary_set_main]
    exact h.capSec

theorem hashmap1_update_main (s : RHM K V) (m : HM K V) (h : s.is1main = true) :
    { s with hashmap1 := m } = set_main s m := by simp [set_main, h]

theorem hashmap1_update_sec (s : RHM K V) (m : HM K V) (h : s.is1main = false) :
    { s with hashmap1 := m } = set_secondary s m := by simp [set_secondary, h]

theorem hashmap2_update_sec (s : RHM K V) (m : HM K V) (h : s.is1main = true) :
    { s with hashmap2 := m } = set_secondary s m := by simp [set_secondary, h]

theorem hashmap2_update_main (s : RHM K V) (m : HM K V) (h : s.is1main = false) :
    { s with hashmap2 := m } = set_main s m := by simp [set_main, h]

theorem get_main_eq1 (s : RHM K V) (h : s.is1main = true) : get_main s = s.hashmap1 := by
  simp [get_main, h]

theorem get_main_eq2 (s : RHM K V) (h : s.is1main = false) : get_main s = s.hashmap2 := by
  simp [get_main, h]

theorem get_sec_eq2 (s : RHM K V) (h : s.is1main = true) : get_secondary s = s.hashmap2 := by
  simp [get_secondary, h]

theorem get_sec_eq1 (s : RHM K V) (h : s.is1main = false) : get_secondary s = s.hashmap1 := by
  simp [get_secondary, h]

/-- The state produced by `insert` just before its final `rehash` call. -/
def insert_mid (s : RHM K V) (k : K) (v : V) : RHM K V :=
  let r1 : Option V :=
    if s.rehashing || s.is1main then s.hashmap1.lookup k else none
  let s1 : RHM K V :=
    if s.rehashing || s.is1main then { s with hashmap1 := (s.hashmap1.remove k).1 } else s
  let s2 : RHM K V :=
    if r1.isNone && (s1.rehashing || !s1.is1main) then
      { s1 with hashmap2 := (s1.hashmap2.remove k).1 }
    else s1
  set_main s2 ((get_main s2).insert k v).1

/-- The previous value reported by `insert`. -/
def insert_ret (s : RHM K V) (k : K) : Option V :=
  let r1 : Option V :=
    if s.rehashing || s.is1main then s.hashmap1.lookup k else none
  let s1 : RHM K V :=
    if s.rehashing || s.is1main then { s with hashmap1 := (s.hashmap1.remove k).1 } else s
  if r1.isNone && (s1.rehashing || !s1.is1main) then s1.hashmap2.lookup k else r1

theorem insert_eq (s : RHM K V) (k : K) (v : V) :
    insert s k v = (rehash (insert_mid s k v), insert_ret s k) := rfl

theorem inv_insert_mid (s : RHM K V) (k : K) (v : V) (h : Inv s) :
    Inv (insert_mid s k v) := by
  obtain ⟨h1, h2, b1, br⟩ := s
  cases br with
  | true =>
    cases b1 with
    | true =>
      cases hlk : h1.lookup k with
      | none =>
        simp only [insert_mid, hlk]
        simp only [Bool.true_or, Bool.or_true, if_true, Option.isNone_none,
          Bool.true_and, Bool.and_true]
        have hB : Inv (⟨(h1.remove k).1, (h2.remove k).1, true, true⟩ : RHM K V) :=
          inv_erase_sec ⟨(h1.remove k).1, h2, true, true⟩ k
            (inv_erase_main ⟨h1, h2, true, true⟩ k h)
        exact inv_insert_main ⟨(h1.remove k).1, (h2.remove k).1, true, true⟩ k v hB
          (not_mem_keysKV_eraseKV_self k _ h.ndSec)
      | some w =>
        simp only [insert_mid, hlk]
        simp only [Bool.true_or, Bool.or_true, if_true, Option.isNone_some,
          Bool.false_and, Bool.and_true, if_false]
        have hA : Inv (⟨(h1.remove k).1, h2, true, true⟩ : RHM K V) :=
          inv_erase_main ⟨h1, h2, true, true⟩ k h
        have hk1 : k ∈ keysKV h1.entries := by
          rw [← lookupKV_isSome_iff]
          have : lookupKV h1.entries k = some w := hlk
          simp [this]
        exact inv_insert_main ⟨(h1.remove k).1, h2, true, true⟩ k v hA
          (fun hmem => h.excl k hk1 hmem)
    | false =>
      cases hlk : h1.lookup k with
      | none =>
        simp only [insert_mid, hlk]
        simp only [Bool.true_or, Bool.or_true, if_true, Option.isNone_none,
          Bool.true_and, Bool.and_true]
        have hB : Inv (⟨(h1.remove k).1, (h2.remove k).1, false, true⟩ : RHM K V) :=
          inv_erase_main ⟨(h1.remove k).1, h2, false, true⟩ k
            (inv_erase_sec ⟨h1, h2, false, true⟩ k h)
        exact inv_insert_main ⟨(h1.remove k).1, (h2.remove k).1, false, true⟩ k v hB
          (not_mem_keysKV_eraseKV_self k _ h.ndSec)
      | some w =>
        simp only [insert_mid, hlk]
        simp only [Bool.true_or, Bool.or_true, if_true, Option.isNone_some,
          Bool.false_and, Bool.and_true, if_false]
        have hA : Inv (⟨(h1.remove k).1, h2, false, true⟩ : RHM K V) :=
          inv_erase_sec ⟨h1, h2, false, true⟩ k h
        exact inv_insert_main ⟨(h1.remove k).1, h2, false, true⟩ k v hA
          (not_mem_keysKV_eraseKV_self k _ h.ndSec)
  | false =>
    cases b1 with
    | true =>
      simp only [insert_mid]
      simp only [Bool.false_or, if_true, Bool.not_true, Bool.or_false, Bool.and_false,
        if_false]
      have hA : Inv (⟨(h1.remove k).1, h2, true, false⟩ : RHM K V) :=
        inv_erase_main ⟨h1, h2, true, false⟩ k h
      refine inv_insert_main ⟨(h1.remove k).1, h2, true, false⟩ k v hA ?_
      have hq := (h.quiSec rfl).1
      intro hmem
      rw [show (get_secondary (⟨(h1.remove k).1, h2, true, false⟩ : RHM K V)).entries = h2.entries
        from rfl] at hmem
      rw [show (get_secondary (⟨h1, h2, true, false⟩ : RHM K V)).entries = h2.entries
        from rfl] at hq
      rw [hq] at hmem
      simp [keysKV] at hmem
    | false =>
      simp only [insert_mid]
      simp only [Bool.false_or, if_false, Bool.not_false, Bool.or_true, Bool.and_true,
        Option.isNone_none, Bool.true_and, if_true]
      have hA : Inv (⟨h1, (h2.remove k).1, false, false⟩ : RHM K V) :=
        inv_erase_main ⟨h1, h2, false, false⟩ k h
      refine inv_insert_main ⟨h1, (h2.remove k).1, false, false⟩ k v hA ?_
      have hq := (h.quiSec rfl).1
      intro hmem
      rw [show (get_secondary (⟨h1, (h2.remove k).1, false, false⟩ : RHM K V)).entries = h1.entries
        from rfl] at hmem
      rw [show (get_secondary (⟨h1, h2, false, false⟩ : RHM K V)).entries = h1.entries
        from rfl] at hq
      rw [hq] at hmem
      simp [keysKV] at hmem

theorem inv_insert (s : RHM K V) (k : K) (v : V) (h : Inv s) :
    Inv (insert s k v).1 := by
  rw [insert_eq]
  exact inv_rehash _ (inv_insert_mid s k v h)

theorem inv_remove (s : RHM K V) (k : K) (h : Inv s) : Inv (remove s k).1 := by
  cases hr : s.rehashing with
  | false =>
    simp only [remove, hr, Bool.false_eq_true, if_false]
    exact inv_erase_main s k h
  | true =>
    have h1 := inv_rehash s h
    cases hm : (get_main (rehash s)).lookup k with
    | some w =>
      simp only [remove, hr, if_true, hm]
      exact inv_erase_main _ k h1
    | none =>
      simp only [remove, hr, if_true, hm]
      exact inv_erase_sec _ k h1

theorem inv_reserve_main (t : RHM K V) (a : Nat) (h : Inv t) :
    Inv (set_main t ((get_main t).reserve a)) := by
  refine ⟨?_, ?_, ?_, ?_, ?_, ?_⟩
  · rw [get_main_set_main]
    exact h.ndMain
  · rw [get_secondary_set_main]
    exact h.ndSec
  · intro k' hk1 hk2
    rw [get_main_set_main] at hk1
    rw [get_secondary_set_main] at hk2
    exact h.excl k' hk1 hk2
  · intro hrf
    rw [rehashing_set_main] at hrf
    rw [get_secondary_set_main]
    exact h.quiSec hrf
  · rw [get_main_set_main]
    simp only [HM.reserve, HM.len]
    exact le_trans (Nat.le_add_right _ _) (le_max_right _ _)
  · rw [get_secondary_set_main]
    exact h.capSec

theorem inv_reserve (s : RHM K V) (a : Nat) (h : Inv s) : Inv (reserve s a) :=
  inv_reserve_main (rehash s) a (inv_rehash s h)

theorem inv_clear (s t : RHM K V) (h : clear s = some t) : Inv t := by
  unfold clear drop_secondary at h
  by_cases hz : (get_secondary (set_main s (get_main s).clear)).len = 0
  · rw [if_pos hz] at h
    have ht : t = finalize_drop (set_main s (get_main s).clear) := (Option.some.injEq _ _ ▸ h).symm
    subst ht
    refine ⟨?_, ?_, ?_, ?_, ?_, ?_⟩
    · rw [get_main_finalize_drop, get_main_set_main]
      simp [HM.clear, keysKV]
    · simp [HM.mkEmpty, keysKV]
    · intro k hk1 hk2
      simp [HM.mkEmpty, keysKV] at hk2
    · intro _
      simp [HM.mkEmpty]
    · rw [get_main_finalize_drop, get_main_set_main]
      simp [HM.clear, HM.len]
    · simp [HM.mkEmpty, HM.len]
  · rw [if_neg hz] at h
    cases h

theorem get_mut_state (s : RHM K V) (k : K) :
    (get_mut s k).1 = if s.rehashing = true then rehash s else s := by
  cases hr : s.rehashing with
  | false => simp [get_mut, hr]
  | true =>
    cases hc : (get_main (rehash s)).containsKey k <;> simp [get_mut, hr, hc]

theorem inv_get_mut (s : RHM K V) (k : K) (h : Inv s) : Inv (get_mut s k).1 := by
  rw [get_mut_state]
  cases hr : s.rehashing with
  | false => simpa using h
  | true => simpa using inv_rehash s h

theorem inv_entry_or_insert (s : RHM K V) (k : K) (d : V) (h : Inv s) :
    Inv (entry_or_insert s k d).1 := by
  have h1 : Inv (rehash s) := inv_rehash s h
  unfold entry_or_insert
  by_cases hb : ((rehash s).rehashing && (get_secondary (rehash s)).containsKey k) = true
  · simp only [hb, if_true]
    exact h1
  · simp only [hb, if_false]
    cases hm : (get_main (rehash s)).lookup k with
    | some w =>
      simp only [hm]
      exact h1
    | none =>
      simp only [hm]
      refine inv_insert_main _ k d h1 ?_
      intro hmem
      by_cases hrr : (rehash s).rehashing = true
      · have hcont : (get_secondary (rehash s)).containsKey k = true := by
          simp only [HM.containsKey, HM.lookup]
          rw [lookupKV_isSome_iff]
          exact hmem
        exact hb (by simp [hrr, hcont])
      · have hrf : (rehash s).rehashing = false := by
          cases hx : (rehash s).rehashing
          · rfl
          · exact absurd hx hrr
        have hq := (h1.quiSec hrf).1
        rw [hq] at hmem
        simp [keysKV] at hmem

theorem entries_main_setValue (s : RHM K V) (k : K) (v : V) :
    (get_main (setValue s k v)).entries = setValKV k v (get_main s).entries := by
  cases hb : s.is1main <;> simp [setValue, get_main, hb]

theorem entries_sec_setValue (s : RHM K V) (k : K) (v : V) :
    (get_secondary (setValue s k v)).entries = setValKV k v (get_secondary s).entries := by
  cases hb : s.is1main <;> simp [setValue, get_secondary, hb]

theorem cap_main_setValue (s : RHM K V) (k : K) (v : V) :
    (get_main (setValue s k v)).cap = (get_main s).cap := by
  cases hb : s.is1main <;> simp [setValue, get_main, hb]

theorem cap_sec_setValue (s : RHM K V) (k : K) (v : V) :
    (get_secondary (setValue s k v)).cap = (get_secondary s).cap := by
  cases hb : s.is1main <;> simp [setValue, get_secondary, hb]

theorem rehashing_setValue (s : RHM K V) (k : K) (v : V) :
    (setValue s k v).rehashing = s.rehashing := rfl

theorem inv_setValue (s : RHM K V) (k : K) (v : V) (h : Inv s) : Inv (setValue s k v) := by
  refine ⟨?_, ?_, ?_, ?_, ?_, ?_⟩
  · rw [entries_main_setValue, keysKV_setValKV]
    exact h.ndMain
  · rw [entries_sec_setValue, keysKV_setValKV]
    exact h.ndSec
  · intro k' hk1 hk2
    rw [entries_main_setValue, keysKV_setValKV] at hk1
    rw [entries_sec_setValue, keysKV_setValKV] at hk2
    exact h.excl k' hk1 hk2
  · intro hrf
    rw [rehashing_setValue] at hrf
    have hq := h.quiSec hrf
    rw [entries_sec_setValue, cap_sec_setValue, hq.1]
    exact ⟨rfl, hq.2⟩
  · rw [HM.len, entries_main_setValue, length_setValKV, cap_main_setValue]
    exact h.capMain
  · rw [HM.len, entries_sec_setValue, length_setValKV, cap_sec_setValue]
    exact h.capSec

/-- One public mutating operation of the container (the state effect of
every `&mut self` method, including mutation through returned handles). -/
inductive Step : RHM K V → RHM K V → Prop where
  | rehashStep (s : RHM K V) : Step s (rehash s)
  | shrinkStep (s : RHM K V) : Step s (shrink_to_fit s)
  | reserveStep (s : RHM K V) (a : Nat) : Step s (reserve s a)
  | insertStep (s : RHM K V) (k : K) (v : V) : Step s (insert s k v).1
  | removeStep (s : RHM K V) (k : K) : Step s (remove s k).1
  | clearStep (s t : RHM K V) : clear s = some t → Step s t
  | getMutStep (s : RHM K V) (k : K) : Step s (get_mut s k).1
  | entryStep (s : RHM K V) (k : K) (d : V) : Step s (entry_or_insert s k d).1
  | setValueStep (s : RHM K V) (k : K) (v : V) : Step s (setValue s k v)
  | iterMutStep (s : RHM K V) : Step s (iter_mut_state s)

/-- Container states reachable from the two constructors by public
operations. -/
inductive Reachable : RHM K V → Prop where
  | newR : Reachable mkNew
  | withCapacityR (c : Nat) : Reachable (with_capacity c)
  | step {s t : RHM K V} : Reachable s → Step s t → Reachable t

theorem inv_step {s t : RHM K V} (hst : Step s t) (h : Inv s) : Inv t := by
  cases hst with
  | rehashStep => exact inv_rehash s h
  | shrinkStep => exact inv_shrink_to_fit s h
  | reserveStep a => exact inv_reserve s a h
  | insertStep k v => exact inv_insert s k v h
  | removeStep k => exact inv_remove s k h
  | clearStep =>
    rename_i hc
    exact inv_clear s t hc
  | getMutStep k => exact inv_get_mut s k h
  | entryStep k d => exact inv_entry_or_insert s k d h
  | setValueStep k v => exact inv_setValue s k v h
  | iterMutStep => exact inv_rehash s h

/-- The structural invariant holds in every reachable state. -/
theorem reachable_inv {s : RHM K V} (h : Reachable s) : Inv s := by
  induction h with
  | newR => exact inv_mkNew
  | withCapacityR c => exact inv_with_capacity c
  | step _ hst ih => exact inv_step hst ih

theorem get_eq_of_rehashing (s : RHM K V) (k : K) (hr : s.rehashing = true) :
    get s k = ((get_main s).lookup k).or ((get_secondary s).lookup k) := by
  cases hm : (get_main s).lookup k <;> simp [get, hr, hm, Option.or]

theorem get_eq_of_not_rehashing (s : RHM K V) (k : K) (hr : s.rehashing = false) :
    get s k = (get_main s).lookup k := by
  simp [get, hr]

theorem get_of_main_some (s : RHM K V) (k : K) (v : V)
    (hm : (get_main s).lookup k = some v) : get s k = some v := by
  cases hr : s.rehashing with
  | true => rw [get_eq_of_rehashing s k hr, hm]; rfl
  | false => rw [get_eq_of_not_rehashing s k hr, hm]

theorem lookup_insert_self (m : HM K V) (k : K) (v : V) :
    ((m.insert k v).1).lookup k = some v := by
  simp [HM.insert, HM.lookup, lookupKV]

theorem lookup_insert_ne (m : HM K V) (k k' : K) (v : V) (hne : k' ≠ k) :
    ((m.insert k v).1).lookup k' = lookupKV (eraseKV k m.entries) k' := by
  have hne2 : ¬ k = k' := fun hh => hne hh.symm
  simp [HM.insert, HM.lookup, lookupKV, hne2]

/-- One `rehash` step never changes the value `get` observes for any
present key. -/
theorem get_rehash (s : RHM K V) (k : K) (v : V) (h : Inv s)
    (hg : get s k = some v) : get (rehash s) k = some v := by
  cases hr : s.rehashing with
  | false => rw [rehash_of_not_rehashing s hr]; exact hg
  | true =>
    cases hsec : (get_secondary s).entries with
    | nil =>
      rw [rehash_finalize s hr hsec]
      rw [get_eq_of_rehashing s k hr] at hg
      have hsl : (get_secondary s).lookup k = none := by
        simp [HM.lookup, hsec, lookupKV]
      rw [hsl, Option.or_none] at hg
      rw [get_eq_of_not_rehashing _ k (rehashing_finalize_drop s), get_main_finalize_drop]
      exact hg
    | cons p rest =>
      obtain ⟨k0, v0⟩ := p
      rw [rehash_move s k0 v0 rest hr hsec]
      have hrr : (set_main (set_secondary s ((get_secondary s).remove k0).1)
          ((get_main s).insert k0 v0).1).rehashing = true := by
        rw [rehashing_set_main, rehashing_set_secondary]; exact hr
      rw [get_eq_of_rehashing _ k hrr]
      rw [get_main_set_main, get_secondary_set_main, get_secondary_set_secondary]
      rw [get_eq_of_rehashing s k hr] at hg
      have hsec_erase : ((get_secondary s).remove k0).1.lookup k
          = lookupKV (eraseKV k0 (get_secondary s).entries) k := rfl
      by_cases hk : k = k0
      · subst hk
        -- the moved entry is the key itself: its old binding was in secondary
        have hmain_none : (get_main s).lookup k = none := by
          rw [HM.lookup, lookupKV_eq_none_iff]
          intro hmem
          exact h.excl k hmem (by simp [hsec, keysKV])
        rw [hmain_none, Option.none_or] at hg
        have hv : v0 = v := by
          have : (get_secondary s).lookup k = some v0 := by
            simp [HM.lookup, hsec, lookupKV]
          rw [this] at hg
          exact (Option.some.injEq _ _ ▸ hg)
        rw [lookup_insert_self, hv]
        rfl
      · have hne : k ≠ k0 := hk
        rw [lookup_insert_ne _ _ _ _ hne, lookupKV_eraseKV_ne k0 k _ hne]
        rw [hsec_erase, lookupKV_eraseKV_ne k0 k _ hne]
        rw [← HM.lookup, ← HM.lookup]
        exact hg

theorem inv_rehashN (n : Nat) (s : RHM K V) (h : Inv s) : Inv (rehashN n s) := by
  induction n generalizing s with
  | zero => exact h
  | succ n ih => exact ih (rehash s) (inv_rehash s h)

theorem get_rehashN (n : Nat) (s : RHM K V) (k : K) (v : V) (h : Inv s)
    (hg : get s k = some v) : get (rehashN n s) k = some v := by
  induction n generalizing s with
  | zero => exact hg
  | succ n ih => exact ih (rehash s) (inv_rehash s h) (get_rehash s k v h hg)

/-- `shrink_to_fit` never changes the value `get` observes. -/
theorem get_shrink_to_fit (s : RHM K V) (k : K) (h : Inv s) :
    get (shrink_to_fit s) k = get s k := by
  cases hr : s.rehashing with
  | true => rw [shrink_to_fit_of_rehashing s hr]
  | false =>
    rw [shrink_to_fit_eq s hr]
    have hrr : (set_main { s with rehashing := true, is1main := !s.is1main }
        ((get_secondary s).reserve ((get_secondary s).len + (get_main s).len))).rehashing
        = true := by
      rw [rehashing_set_main]
    rw [get_eq_of_rehashing _ k hrr, get_main_set_main, get_secondary_set_main,
      get_secondary_swap]
    have hsl : ((get_secondary s).reserve
        ((get_secondary s).len + (get_main s).len)).lookup k = none := by
      simp [HM.reserve, HM.lookup, (h.quiSec hr).1, lookupKV]
    rw [hsl, Option.none_or, get_eq_of_not_rehashing s k hr]

/-- Migration converges: from a rehashing state whose secondary table holds
`m` entries, `m + 1` calls to `rehash` finish the reorganization. -/
theorem rehashN_converges (m : Nat) : ∀ (s : RHM K V), s.rehashing = true →
    (get_secondary s).len = m →
    (rehashN (m + 1) s).rehashing = false ∧
    get_secondary (rehashN (m + 1) s) = HM.mkEmpty := by
  induction m with
  | zero =>
    intro s hr hm
    have hsec : (get_secondary s).entries = [] := List.length_eq_zero.mp hm
    have h1 : rehashN 1 s = finalize_drop s := by
      show rehashN 0 (rehash s) = finalize_drop s
      rw [rehash_finalize s hr hsec]
      rfl
    rw [h1]
    exact ⟨rehashing_finalize_drop s, get_secondary_finalize_drop s⟩
  | succ m ih =>
    intro s hr hm
    cases hsec : (get_secondary s).entries with
    | nil =>
      rw [HM.len, hsec] at hm
      cases hm
    | cons p rest =>
      obtain ⟨k0, v0⟩ := p
      have hmove := rehash_move s k0 v0 rest hr hsec
      have hrr : (rehash s).rehashing = true := by
        rw [hmove, rehashing_set_main, rehashing_set_secondary]; exact hr
      have hrm : (get_secondary (rehash s)).len = m := by
        rw [hmove, get_secondary_set_main, get_secondary_set_secondary]
        simp only [HM.remove, HM.len, hsec, eraseKV, if_pos rfl]
        rw [HM.len, hsec] at hm
        simpa using hm
      show (rehashN (m + 1) (rehash s)).rehashing = false ∧
        get_secondary (rehashN (m + 1) (rehash s)) = HM.mkEmpty
      exact ih (rehash s) hrr hrm

/-- `rehash` never removes a key from the main table. -/
theorem main_lookup_rehash (s : RHM K V) (k : K) (v : V) (h : Inv s)
    (hm : (get_main s).lookup k = some v) : (get_main (rehash s)).lookup k = some v := by
  cases hr : s.rehashing with
  | false => rw [rehash_of_not_rehashing s hr]; exact hm
  | true =>
    cases hsec : (get_secondary s).entries with
    | nil =>
      rw [rehash_finalize s hr hsec, get_main_finalize_drop]
      exact hm
    | cons p rest =>
      obtain ⟨k0, v0⟩ := p
      rw [rehash_move s k0 v0 rest hr hsec, get_main_set_main]
      have hne : k ≠ k0 := by
        intro he
        have hmem : k ∈ keysKV (get_main s).entries := by
          rw [← lookupKV_isSome_iff, ← HM.lookup, hm]; rfl
        exact h.excl k hmem (by simp [hsec, keysKV, he])
      rw [lookup_insert_ne _ _ _ _ hne, lookupKV_eraseKV_ne k0 k _ hne, ← HM.lookup]
      exact hm

theorem insert_ret_eq_get (s : RHM K V) (k : K) (h : Inv s) :
    insert_ret s k = get s k := by
  obtain ⟨h1, h2, b1, br⟩ := s
  cases br with
  | true =>
    cases b1 with
    | true =>
      cases hlk : h1.lookup k with
      | some w => simp [insert_ret, get, get_main, get_secondary, hlk]
      | none => simp [insert_ret, get, get_main, get_secondary, hlk]
    | false =>
      cases hlk : h1.lookup k with
      | some w =>
        have hmem : k ∈ keysKV h1.entries := by
          rw [← lookupKV_isSome_iff, ← HM.lookup, hlk]; rfl
        have h2n : h2.lookup k = none := by
          rw [HM.lookup, lookupKV_eq_none_iff]
          intro hmem2
          exact h.excl k hmem2 hmem
        simp [insert_ret, get, get_main, get_secondary, hlk, h2n]
      | none =>
        cases hlk2 : h2.lookup k with
        | some w2 => simp [insert_ret, get, get_main, get_secondary, hlk, hlk2]
        | none => simp [insert_ret, get, get_main, get_secondary, hlk, hlk2]
  | false =>
    cases b1 with
    | true => simp [insert_ret, get, get_main, get_secondary]
    | false => simp [insert_ret, get, get_main, get_secondary]

theorem get_insert_self (s : RHM K V) (k : K) (v : V) (h : Inv s) :
    get (insert s k v).1 k = some v := by
  rw [insert_eq]
  apply get_rehash _ k v (inv_insert_mid s k v h)
  apply get_of_main_some
  simp only [insert_mid]
  rw [get_main_set_main]
  exact lookup_insert_self _ k v

theorem main_lookup_insert_self (s : RHM K V) (k : K) (v : V) (h : Inv s) :
    (get_main (insert s k v).1).lookup k = some v := by
  rw [insert_eq]
  apply main_lookup_rehash _ k v (inv_insert_mid s k v h)
  simp only [insert_mid]
  rw [get_main_set_main]
  exact lookup_insert_self _ k v

theorem inv_h12 (s : RHM K V) (h : Inv s) :
    (keysKV s.hashmap1.entries).Nodup ∧ (keysKV s.hashmap2.entries).Nodup ∧
    ∀ k : K, k ∈ keysKV s.hashmap1.entries → k ∈ keysKV s.hashmap2.entries → False := by
  cases hb : s.is1main with
  | true =>
    refine ⟨?_, ?_, ?_⟩
    · have hh := h.ndMain
      rw [get_main_eq1 s hb] at hh
      exact hh
    · have hh := h.ndSec
      rw [get_sec_eq2 s hb] at hh
      exact hh
    · intro k hk1 hk2
      apply h.excl k
      · rw [get_main_eq1 s hb]; exact hk1
      · rw [get_sec_eq2 s hb]; exact hk2
  | false =>
    refine ⟨?_, ?_, ?_⟩
    · have hh := h.ndSec
      rw [get_sec_eq1 s hb] at hh
      exact hh
    · have hh := h.ndMain
      rw [get_main_eq2 s hb] at hh
      exact hh
    · intro k hk1 hk2
      apply h.excl k
      · rw [get_main_eq2 s hb]; exact hk2
      · rw [get_sec_eq1 s hb]; exact hk1

/-- Under the invariant, `get` observes exactly the union of both tables'
bindings. -/
theorem get_iff_lookup12 (s : RHM K V) (k : K) (v : V) (h : Inv s) :
    get s k = some v ↔
    (lookupKV s.hashmap1.entries k = some v ∨ lookupKV s.hashmap2.entries k = some v) := by
  obtain ⟨h1, h2, b1, br⟩ := s
  cases br with
  | false =>
    have hq := (h.quiSec rfl).1
    cases b1 with
    | true =>
      rw [show (get_secondary (⟨h1, h2, true, false⟩ : RHM K V)).entries = h2.entries
        from rfl] at hq
      rw [get_eq_of_not_rehashing _ k rfl]
      rw [show get_main (⟨h1, h2, true, false⟩ : RHM K V) = h1 from rfl]
      simp [HM.lookup, hq, lookupKV]
    | false =>
      rw [show (get_secondary (⟨h1, h2, false, false⟩ : RHM K V)).entries = h1.entries
        from rfl] at hq
      rw [get_eq_of_not_rehashing _ k rfl]
      rw [show get_main (⟨h1, h2, false, false⟩ : RHM K V) = h2 from rfl]
      simp [HM.lookup, hq, lookupKV]
  | true =>
    rw [get_eq_of_rehashing _ k rfl]
    cases b1 with
    | true =>
      rw [show get_main (⟨h1, h2, true, true⟩ : RHM K V) = h1 from rfl,
        show get_secondary (⟨h1, h2, true, true⟩ : RHM K V) = h2 from rfl]
      cases hl1 : lookupKV h1.entries k with
      | some w =>
        have h2n : lookupKV h2.entries k = none := by
          rw [lookupKV_eq_none_iff]
          intro hm2
          have hm1 : k ∈ keysKV h1.entries := by
            rw [← lookupKV_isSome_iff, hl1]; rfl
          exact h.excl k hm1 hm2
        simp [HM.lookup, hl1, h2n, Option.or]
      | none => simp [HM.lookup, hl1, Option.or]
    | false =>
      rw [show get_main (⟨h1, h2, false, true⟩ : RHM K V) = h2 from rfl,
        show get_secondary (⟨h1, h2, false, true⟩ : RHM K V) = h1 from rfl]
      cases hl2 : lookupKV h2.entries k with
      | some w =>
        have h1n : lookupKV h1.entries k = none := by
          rw [lookupKV_eq_none_iff]
          intro hm1
          have hm2 : k ∈ keysKV h2.entries := by
            rw [← lookupKV_isSome_iff, hl2]; rfl
          exact h.excl k hm2 hm1
        simp [HM.lookup, hl2, h1n, Option.or]
      | none => simp [HM.lookup, hl2, Option.or]

theorem lookups_none_of_contains_false (s : RHM K V) (k : K)
    (hc : contains_key s k = false) :
    (get_main s).lookup k = none ∧ (get_secondary s).lookup k = none := by
  constructor
  · cases hx : (get_main s).lookup k with
    | none => rfl
    | some w =>
      exfalso
      have hct : (get_main s).containsKey k = true := by simp [HM.containsKey, hx]
      rw [contains_key, hct] at hc
      cases hc
  · cases hx : (get_secondary s).lookup k with
    | none => rfl
    | some w =>
      exfalso
      have hct : (get_secondary s).containsKey k = true := by simp [HM.containsKey, hx]
      rw [contains_key, hct] at hc
      simp at hc

theorem contains_key_rehash_false (s : RHM K V) (k : K)
    (hc : contains_key s k = false) : contains_key (rehash s) k = false := by
  obtain ⟨hm1, hm2⟩ := lookups_none_of_contains_false s k hc
  cases hr : s.rehashing with
  | false => rw [rehash_of_not_rehashing s hr]; exact hc
  | true =>
    cases hsec : (get_secondary s).entries with
    | nil =>
      rw [rehash_finalize s hr hsec, contains_key, get_main_finalize_drop,
        get_secondary_finalize_drop]
      have hm1' : lookupKV (get_main s).entries k = none := hm1
      simp [HM.containsKey, HM.lookup, HM.mkEmpty, lookupKV, hm1']
    | cons p rest =>
      obtain ⟨k0, v0⟩ := p
      have hne : k ≠ k0 := by
        intro he
        rw [HM.lookup, hsec] at hm2
        simp [lookupKV, he] at hm2
      rw [rehash_move s k0 v0 rest hr hsec, contains_key, get_main_set_main,
        get_secondary_set_main, get_secondary_set_secondary]
      have hmain : ((get_main s).insert k0 v0).1.lookup k = none := by
        rw [lookup_insert_ne _ _ _ _ hne, lookupKV_eraseKV_ne k0 k _ hne, ← HM.lookup]
        exact hm1
      have hsec2 : ((get_secondary s).remove k0).1.lookup k = none := by
        show lookupKV (eraseKV k0 (get_secondary s).entries) k = none
        rw [lookupKV_eraseKV_ne k0 k _ hne, ← HM.lookup]
        exact hm2
      simp [HM.containsKey, hmain, hsec2]

/-- A concrete container holding the single binding `0 ↦ 2`. -/
def oneEntry : RHM Nat Nat := (insert mkNew 0 2).1

theorem oneEntry_reachable : Reachable oneEntry :=
  Reachable.step Reachable.newR (Step.insertStep mkNew 0 2)

/-- A concrete mid-migration container with entries in both tables and the
roles swapped (`is1main = false`). -/
def twoPhase : RHM Nat Nat :=
  (insert (shrink_to_fit (insert (insert mkNew 0 10).1 1 11).1) 2 12).1

theorem twoPhase_reachable : Reachable twoPhase := by
  apply Reachable.step _ (Step.insertStep _ 2 12)
  apply Reachable.step _ (Step.shrinkStep _)
  apply Reachable.step _ (Step.insertStep _ 1 11)
  exact Reachable.step Reachable.newR (Step.insertStep _ 0 10)

/-! ## Claim theorems -/

/-- **C1** (counterexample): the claim "`beginReorganization()` followed by
at most N calls to `advanceOneStep()` always results in
`isReorganizing() == false`" fails at N = 1: on a reachable one-entry,
non-reorganizing container, `shrink_to_fit` followed by one `rehash` call
still reports rehashing — the first call moves the last entry and only a
further call retires the flag. -/
theorem claim1_counterexample :
    len oneEntry = 1 ∧ oneEntry.rehashing = false ∧
    is_rehashing (rehashN 1 (shrink_to_fit oneEntry)) = some true := by decide

/-- **C1** (amended): starting from a reachable container with N entries and
not reorganizing, `shrink_to_fit` followed by at most N + 1 calls to
`rehash` (exactly N + 1 suffice) always results in `is_rehashing` reporting
`false` (with its internal assertion passing). -/
theorem claim1_theorem (s : RHM K V) (h : Reachable s) (hr : s.rehashing = false) :
    is_rehashing (rehashN (len s + 1) (shrink_to_fit s)) = some false := by
  have hinv := reachable_inv h
  have hq := hinv.quiSec hr
  have hst : (shrink_to_fit s).rehashing = true := by
    rw [shrink_to_fit_eq s hr, rehashing_set_main]
  have hsec : (get_secondary (shrink_to_fit s)).len = len s := by
    rw [shrink_to_fit_eq s hr, get_secondary_set_main, get_secondary_swap, len]
    rw [show (get_secondary s).len = 0 from by simp [HM.len, hq.1]]
    omega
  obtain ⟨hrf, hse⟩ := rehashN_converges (len s) (shrink_to_fit s) hst hsec
  unfold is_rehashing
  rw [hrf, hse]
  simp [HM.mkEmpty, HM.len]

theorem claim1_witness :
    is_rehashing (rehashN (len oneEntry + 1) (shrink_to_fit oneEntry)) = some false :=
  claim1_theorem oneEntry oneEntry_reachable (by decide)

/-- **C2** (code bug): on a container mid-reorganization with a non-empty
secondary table, `clear()` does not complete: it clears only the main table
and then `drop_secondary`'s `assert_eq!(self.get_secondary().len(), 0)`
fires (modelled as `none`), instead of the specified behavior of dropping
all entries and discarding the secondary table regardless of the
reorganization state. -/
theorem claim2_theorem :
    (shrink_to_fit oneEntry).rehashing = true ∧
    (get_secondary (shrink_to_fit oneEntry)).len = 1 ∧
    clear (shrink_to_fit oneEntry) = none := by decide

/-- **C3**: exclusivity invariant I1 — in every reachable state (closed
under all public operations, in particular any sequence of inserts/removes
interleaved with `shrink_to_fit`/`rehash` calls), every key present in the
container is present in exactly one of the two internal tables. -/
theorem claim3_theorem (s : RHM K V) (h : Reachable s) (k : K)
    (hc : contains_key s k = true) :
    ((get_main s).containsKey k = true ∧ (get_secondary s).containsKey k = false) ∨
    ((get_secondary s).containsKey k = true ∧ (get_main s).containsKey k = false) := by
  have hinv := reachable_inv h
  cases hm : (get_main s).containsKey k with
  | true =>
    left
    refine ⟨rfl, ?_⟩
    cases hs : (get_secondary s).containsKey k with
    | false => rfl
    | true =>
      exfalso
      apply hinv.excl k
      · rw [← lookupKV_isSome_iff, ← HM.lookup]
        exact hm
      · rw [← lookupKV_isSome_iff, ← HM.lookup]
        exact hs
  | false =>
    right
    refine ⟨?_, rfl⟩
    simp only [contains_key, hm, Bool.false_or] at hc
    exact hc

theorem claim3_witness :
    contains_key oneEntry 0 = true ∧
    (((get_main oneEntry).containsKey 0 = true ∧
        (get_secondary oneEntry).containsKey 0 = false) ∨
      ((get_secondary oneEntry).containsKey 0 = true ∧
        (get_main oneEntry).containsKey 0 = false)) :=
  ⟨by decide, claim3_theorem oneEntry oneEntry_reachable 0 (by decide)⟩

/-- **C4**: quiescent-secondary invariant I2 — in every reachable state,
whenever the `rehashing` flag is false the secondary table is empty and its
capacity is exactly 0; in particular, immediately after a `rehash` call
that reports `is_rehashing() == false`, the secondary table's capacity is
exactly zero. -/
theorem claim4_theorem :
    (∀ s : RHM K V, Reachable s → s.rehashing = false →
      (get_secondary s).entries = [] ∧ (get_secondary s).cap = 0) ∧
    (∀ s : RHM K V, Reachable s → is_rehashing (rehash s) = some false →
      (get_secondary (rehash s)).cap = 0) := by
  constructor
  · intro s h hr
    exact (reachable_inv h).quiSec hr
  · intro s h hir
    have hr2 : Reachable (rehash s) := Reachable.step h (Step.rehashStep s)
    cases hx : (rehash s).rehashing with
    | true =>
      simp [is_rehashing, hx] at hir
    | false =>
      exact ((reachable_inv hr2).quiSec hx).2

theorem claim4_witness :
    ((get_secondary (mkNew : RHM Nat Nat)).entries = [] ∧
      (get_secondary (mkNew : RHM Nat Nat)).cap = 0) ∧
    (get_secondary (rehash (rehash (shrink_to_fit oneEntry)))).cap = 0 :=
  ⟨claim4_theorem.1 mkNew Reachable.newR (by decide),
    claim4_theorem.2 (rehash (shrink_to_fit oneEntry))
      (Reachable.step (Reachable.step oneEntry_reachable (Step.shrinkStep oneEntry))
        (Step.rehashStep (shrink_to_fit oneEntry)))
      (by decide)⟩

/-- **C5**: `insert(k, v)` returns exactly what `get k` returned before the
call (the previous binding, or `none`), and afterwards `k` is bound to `v`
in the main table and observed by `get`; in the concrete scenario — insert
`0 ↦ 2`, `shrink_to_fit()`, `insert(0, 5)` — it returns `some 2`, and
afterwards `is_rehashing()` reports `false` and `get 0` yields `5`. -/
theorem claim5_theorem :
    (∀ (s : RHM K V) (k : K) (v : V), Reachable s →
      (insert s k v).2 = get s k ∧ get (insert s k v).1 k = some v ∧
      (get_main (insert s k v).1).lookup k = some v ∧
      (get_secondary (insert s k v).1).containsKey k = false) ∧
    ((insert (shrink_to_fit oneEntry) 0 5).2 = some 2 ∧
      is_rehashing (insert (shrink_to_fit oneEntry) 0 5).1 = some false ∧
      get (insert (shrink_to_fit oneEntry) 0 5).1 0 = some 5) := by
  constructor
  · intro s k v h
    have hinv := reachable_inv h
    have hinv' : Inv (insert s k v).1 := inv_insert s k v hinv
    have hmain := main_lookup_insert_self s k v hinv
    refine ⟨?_, get_insert_self s k v hinv, hmain, ?_⟩
    · rw [insert_eq]
      exact insert_ret_eq_get s k hinv
    · have hmem : k ∈ keysKV (get_main (insert s k v).1).entries := by
        rw [← lookupKV_isSome_iff, ← HM.lookup, hmain]
        rfl
      cases hx : (get_secondary (insert s k v).1).containsKey k with
      | false => rfl
      | true =>
        exfalso
        apply hinv'.excl k hmem
        rw [← lookupKV_isSome_iff, ← HM.lookup]
        exact hx
  · exact ⟨by decide, by decide, by decide⟩

theorem claim5_witness :
    (insert oneEntry 1 9).2 = get oneEntry 1 ∧ get (insert oneEntry 1 9).1 1 = some 9 ∧
    (get_main (insert oneEntry 1 9).1).lookup 1 = some 9 ∧
    (get_secondary (insert oneEntry 1 9).1).containsKey 1 = false :=
  claim5_theorem.1 oneEntry 1 9 oneEntry_reachable

/-- **C6**: read stability during migration — any binding observable by
`get` in a reachable state is still observed, with the same value, after
`shrink_to_fit` followed by any number of `rehash` steps. -/
theorem claim6_theorem (s : RHM K V) (k : K) (v : V) (h : Reachable s)
    (hg : get s k = some v) (n : Nat) :
    get (rehashN n (shrink_to_fit s)) k = some v := by
  have hinv := reachable_inv h
  apply get_rehashN n _ k v (inv_shrink_to_fit s hinv)
  rw [get_shrink_to_fit s k hinv]
  exact hg

theorem claim6_witness : get (rehashN 1 (shrink_to_fit oneEntry)) 0 = some 2 :=
  claim6_theorem oneEntry 0 2 oneEntry_reachable (by decide) 1

/-- **C7**: iteration completeness — in every reachable state, whether or
not a reorganization is in progress, `iter` has pairwise-distinct keys, its
`ExactSizeIterator` length equals `len()`, and it yields exactly the
container's bindings (those `get` observes), with no omissions. -/
theorem claim7_theorem (s : RHM K V) (h : Reachable s) :
    (keysKV (iter s)).Nodup ∧ iterLen s = len s ∧
    ∀ (k : K) (v : V), ((k, v) ∈ iter s ↔ get s k = some v) := by
  have hinv := reachable_inv h
  obtain ⟨hnd1, hnd2, hdisj⟩ := inv_h12 s hinv
  refine ⟨?_, ?_, ?_⟩
  · rw [iter, show keysKV (s.hashmap1.entries ++ s.hashmap2.entries)
      = keysKV s.hashmap1.entries ++ keysKV s.hashmap2.entries from by simp [keysKV]]
    rw [List.nodup_append]
    exact ⟨hnd1, hnd2, fun k hk1 hk2 => hdisj k hk1 hk2⟩
  · cases hb : s.is1main <;>
      simp [iterLen, len, get_main, get_secondary, hb, Nat.add_comm]
  · intro k v
    rw [iter, List.mem_append, get_iff_lookup12 s k v hinv]
    constructor
    · rintro (hm | hm)
      · exact Or.inl (mem_lookupKV_of_nodup _ k v hnd1 hm)
      · exact Or.inr (mem_lookupKV_of_nodup _ k v hnd2 hm)
    · rintro (hl | hl)
      · exact Or.inl (lookupKV_mem _ k v hl)
      · exact Or.inr (lookupKV_mem _ k v hl)

theorem claim7_witness :
    (keysKV (iter twoPhase)).Nodup ∧ iterLen twoPhase = len twoPhase ∧
    ((0, 10) ∈ iter twoPhase ↔ get twoPhase 0 = some 10) :=
  ⟨(claim7_theorem twoPhase twoPhase_reachable).1,
    (claim7_theorem twoPhase twoPhase_reachable).2.1,
    (claim7_theorem twoPhase twoPhase_reachable).2.2 0 10⟩

/-- **C8** (amended): `iter` always yields `hashmap1`'s entries followed by
`hashmap2`'s entries — equivalently, the main table's entries come first
exactly when `is1main` is true; when the roles are swapped
(`is1main = false`, as happens after `shrink_to_fit`), the secondary
table's entries come first. -/
theorem claim8_theorem (s : RHM K V) :
    iter s = s.hashmap1.entries ++ s.hashmap2.entries ∧
    iter s = cond s.is1main ((get_main s).entries ++ (get_secondary s).entries)
      ((get_secondary s).entries ++ (get_main s).entries) := by
  cases hb : s.is1main <;> simp [iter, get_main, get_secondary, hb]

/-- **C8** (counterexample): a reachable mid-migration container with the
roles swapped whose `iter` starts with an entry of the secondary table even
though the main table is non-empty — refuting "the main table's entries
first, then the secondary table's". -/
theorem claim8_counterexample :
    twoPhase.is1main = false ∧ (get_main twoPhase).entries ≠ [] ∧
    (iter twoPhase).head? = some (0, 10) ∧
    (get_main twoPhase).lookup 0 = none ∧
    (get_secondary twoPhase).lookup 0 = some 10 := by decide

/-- **C9**: absence handling — `get`, `remove`, `get_mut` and `contains_key`
on an empty container, and on any container for an absent key, return the
explicit not-found result (`none` / `false`; in the model they are total, so
no error is possible), while indexed access `map[k]` is the one loud
failure: it returns the `"no entry found for key"` panic exactly when the
key is absent. -/
theorem claim9_theorem :
    (∀ k : K, get (mkNew : RHM K V) k = none ∧ (remove (mkNew : RHM K V) k).2 = none ∧
      (get_mut (mkNew : RHM K V) k).2 = none ∧
      contains_key (mkNew : RHM K V) k = false ∧
      index (mkNew : RHM K V) k = Except.error "no entry found for key") ∧
    (∀ (s : RHM K V) (k : K), contains_key s k = false →
      get s k = none ∧ (remove s k).2 = none ∧ (get_mut s k).2 = none ∧
      index s k = Except.error "no entry found for key") := by
  have hpart2 : ∀ (s : RHM K V) (k : K), contains_key s k = false →
      get s k = none ∧ (remove s k).2 = none ∧ (get_mut s k).2 = none ∧
      index s k = Except.error "no entry found for key" := by
    intro s k hc
    obtain ⟨hm1, hm2⟩ := lookups_none_of_contains_false s k hc
    have hget : get s k = none := by
      cases hr : s.rehashing with
      | true =>
        rw [get_eq_of_rehashing s k hr, hm1, hm2]
        rfl
      | false =>
        rw [get_eq_of_not_rehashing s k hr]
        exact hm1
    refine ⟨hget, ?_, ?_, ?_⟩
    · cases hr : s.rehashing with
      | false =>
        simp only [remove, hr, Bool.false_eq_true, if_false]
        exact hm1
      | true =>
        have hc' := contains_key_rehash_false s k hc
        obtain ⟨hm1', hm2'⟩ := lookups_none_of_contains_false (rehash s) k hc'
        simp only [remove, hr, if_true, hm1']
        exact hm2'
    · cases hr : s.rehashing with
      | false =>
        simp only [get_mut, hr, Bool.false_eq_true, if_false]
        exact hm1
      | true =>
        have hc' := contains_key_rehash_false s k hc
        obtain ⟨hm1', hm2'⟩ := lookups_none_of_contains_false (rehash s) k hc'
        have hcK : (get_main (rehash s)).containsKey k = false := by
          simp [HM.containsKey, hm1']
        simp only [get_mut, hr, if_true, hcK, Bool.false_eq_true, if_false]
        exact hm2'
    · simp [index, hget]
  constructor
  · intro k
    have hc0 : contains_key (mkNew : RHM K V) k = false := by
      simp [contains_key, mkNew, HM.containsKey, HM.lookup, HM.mkEmpty,
        get_main, get_secondary, lookupKV]
    obtain ⟨hg, hrm, hgm, hi⟩ := hpart2 mkNew k hc0
    exact ⟨hg, hrm, hgm, hc0, hi⟩
  · exact hpart2

theorem claim9_witness :
    (get (mkNew : RHM Nat Nat) 3 = none ∧ (remove (mkNew : RHM Nat Nat) 3).2 = none ∧
      (get_mut (mkNew : RHM Nat Nat) 3).2 = none ∧
      contains_key (mkNew : RHM Nat Nat) 3 = false ∧
      index (mkNew : RHM Nat Nat) 3 = Except.error "no entry found for key") ∧
    (get (shrink_to_fit oneEntry) 7 = none ∧
      (remove (shrink_to_fit oneEntry) 7).2 = none ∧
      (get_mut (shrink_to_fit oneEntry) 7).2 = none ∧
      index (shrink_to_fit oneEntry) 7 = Except.error "no entry found for key") :=
  ⟨claim9_theorem.1 3, claim9_theorem.2 (shrink_to_fit oneEntry) 7 (by decide)⟩

/-- **C10**: `capacity()` equals the main table's reserved capacity plus the
count of entries still held in the secondary table (the spec's policy (b)),
and consequently, in every reachable state, `capacity()` is at least
`len()`. -/
theorem claim10_theorem :
    (∀ s : RHM K V, capacity s = (get_main s).cap + (get_secondary s).len) ∧
    (∀ s : RHM K V, Reachable s → len s ≤ capacity s) := by
  constructor
  · intro s
    rfl
  · intro s h
    have hinv := reachable_inv h
    show (get_main s).len + (get_secondary s).len ≤ (get_main s).cap + (get_secondary s).len
    exact Nat.add_le_add_right hinv.capMain _

theorem claim10_witness :
    capacity twoPhase = (get_main twoPhase).cap + (get_secondary twoPhase).len ∧
    len twoPhase ≤ capacity twoPhase :=
  ⟨claim10_theorem.1 twoPhase, claim10_theorem.2 twoPhase twoPhase_reachable⟩

end RHM
